import Mathlib

/-!
# Org unit chain: `getChain` and `sortChain`

A shallow embedding of the two functions at the end of
`src/controllers/org-units.js`, and the properties of the forest they build.
-/

set_option autoImplicit false

namespace OrgUnits

/-! ## Data model -/

/-- A scalar attribute value of a serialised org unit. -/
inductive Val where
  | null
  | bool (b : Bool)
  | num (n : Int)
  | str (s : String)
  deriving DecidableEq, Repr

/-- The scalar attributes of a serialised org unit, by key, in key order. The
`children` key is not one of them: it is the second component of `Entry`. -/
abbrev Attrs := List (String × Val)

/-- A plain object of the response: its scalar attributes and its `children`
key, `none` when the object has no such key. -/
inductive Entry where
  | mk (attrs : Attrs) (children : Option (List Entry))
  deriving Repr

/-- The scalar attributes of an entry. -/
def Entry.attrs : Entry → Attrs
  | .mk a _ => a

/-- The `children` key of an entry. -/
def Entry.children : Entry → Option (List Entry)
  | .mk _ c => c

/-- A unit of `sortChain` after `unit.children = []`: the `children` key holds
an array. -/
structure Node where
  attrs : Attrs
  children : List Entry
  deriving Repr

/-- The object a node stands for. -/
def Node.toEntry (n : Node) : Entry := .mk n.attrs (some n.children)

/-- A fetched org unit model: what `toJSON()`, `get('lft')` and `get('rgt')`
give. -/
structure OrgUnit where
  json : Attrs
  lft : Int
  rgt : Int
  deriving Repr

/-- The response of `getChain`. -/
structure Resp where
  unit : Attrs
  children : List Entry
  parents : List Entry
  deriving Repr

/-! ## Object helpers -/

/-- Assignment `o[k] = v`: replaces the value of an existing key, appends a
new key otherwise. -/
def setKey (o : Attrs) (k : String) (v : Val) : Attrs :=
  if o.any (fun p => p.1 == k) then o.map (fun p => if p.1 == k then (k, v) else p)
  else o ++ [(k, v)]

/-- Lodash `omit`: the object without the listed keys. -/
def omitKeys (o : Attrs) (ks : List String) : Attrs :=
  o.filter (fun p => !(ks.contains p.1))

/-- Array `indexOf` on the type list, for the value of a `type` key:
`-1` when the value is missing, not a string, or not in the list. -/
def indexOf (types : List String) : Option Val → Int
  | some (Val.str s) => if types.indexOf s < types.length then (types.indexOf s : Int) else -1
  | _ => -1

/-! ## sortChain -/

/-- The closure `depth` of `sortChain`: `types.indexOf( units[ index ].type )`.
A slot that holds `false` has no `type`. -/
def depth (types : List String) (units : List (Option Node)) (index : Nat) : Int :=
  indexOf types
    (match units[index]? with
      | some (some n) => n.attrs.lookup "type"
      | _ => none)

/-- The inner loop of `sortChain`, `for ( let u = i - 1; u >= 0; u-- )`, entered
with `u + 1` as last argument: the index at which it breaks, if any. -/
def scan (types : List String) (units : List (Option Node)) (i : Nat) : Nat → Option Nat
  | 0 => none
  | u + 1 => if depth types units i > depth types units u then some u
             else scan types units i u

/-- One iteration of the outer loop of `sortChain` at index `i`: on a break at
`u`, `units[ u ].children.push( units[ i ] ); units[ i ] = false`. The inner
loop only breaks at slots below `i`, which still hold their unit. -/
def body (types : List String) (units : List (Option Node)) (i : Nat) : List (Option Node) :=
  match scan types units i i with
  | none => units
  | some u =>
    match units[u]?, units[i]? with
    | some (some p), some (some c) =>
      (units.set u (some { p with children := p.children ++ [c.toEntry] })).set i none
    | _, _ => units

/-- The outer loop of `sortChain`, `for ( let i = units.length - 1; i > 0; i-- )`,
entered at index `i`. -/
def loop (types : List String) : Nat → List (Option Node) → List (Option Node)
  | 0, units => units
  | i + 1, units => loop types i (body types units (i + 1))

/-- Lodash `compact` on the slots: the units that were not replaced by `false`. -/
def compact (units : List (Option Node)) : List Entry :=
  units.filterMap (fun s => s.map Node.toEntry)

/-- The function `sortChain`; `types` is `OrgUnit.getTypes()`. -/
def sortChain (types : List String) (units : List Entry) : List Entry :=
  let units := units.map (fun e => some (Node.mk e.attrs []))
  compact (loop types (units.length - 1) units)

/-! ## getChain -/

/-- The comparison `r.lft < left` of the partition of `getChain`. -/
def lftBelow (r : Attrs) (left : Int) : Bool :=
  match r.lookup "lft" with
  | some (Val.num a) => decide (a < left)
  | _ => false

/-- The `units` of `getChain`: each model of the chain as JSON, with `lft` and
`rgt` written in. -/
def withBounds (u : OrgUnit) : Attrs :=
  setKey (setKey u.json "lft" (Val.num u.lft)) "rgt" (Val.num u.rgt)

/-- The `map` of `getChain`: a unit without its bounds. -/
def omitBounds (m : Attrs) : Entry := .mk (omitKeys m ["lft", "rgt"]) none

/-- The split of `getChain` ("Splits chain into children and parents"): the
response before the children are sorted. `chain` is `none` when
`unit.getChain()` gives nothing. -/
def splitChain (unit : OrgUnit) (chain : Option (List OrgUnit)) : Resp :=
  let resp : Resp := { unit := unit.json, children := [], parents := [] }
  match chain with
  | none => resp
  | some chain =>
    let left := unit.lft
    let units := chain.map withBounds
    let split := units.partition (fun r => lftBelow r left)
    { resp with parents := split.1.map omitBounds, children := split.2.map omitBounds }

/-- The step "Sorts children" of `getChain`: `sortChain` is called only on more
than one child. -/
def sortChildren (types : List String) (children : List Entry) : List Entry :=
  if children.length > 1 then sortChain types children else children

/-- The function `getChain`, on the fetched unit and its chain; `types` is
`OrgUnit.getTypes()`. -/
def getChain (types : List String) (unit : OrgUnit) (chain : Option (List OrgUnit)) : Resp :=
  let resp := splitChain unit chain
  { resp with children := sortChildren types resp.children }

/-- The entry of a unit of the chain in the response: its JSON without the
bounds. -/
def entryOf (u : OrgUnit) : Entry := omitBounds (withBounds u)

/-- The units of a chain, none when the chain is absent. -/
def chainUnits (chain : Option (List OrgUnit)) : List OrgUnit :=
  match chain with
  | none => []
  | some chain => chain

/-- Modelled from the spec: the list `OrgUnit.getTypes()` of `models/org_units`,
which is not among the sources; the spec gives it as TypeOrder. -/
def typeOrder : List String := ["Nation", "Region", "Domain", "Venue"]

/-- An entry that has only a `type`. -/
def ofType (t : String) : Entry := .mk [("type", Val.str t)] none

/-- An entry that has a `type` and a `name`. -/
def named (t n : String) : Entry := .mk [("type", Val.str t), ("name", Val.str n)] none

/-- The focal unit of the scenario of the spec. -/
def scenarioFocal : OrgUnit := ⟨[("code", Val.str "US")], 10, 40⟩

/-- The chain of the scenario of the spec. -/
def scenarioChain : List OrgUnit :=
  [⟨[("type", Val.str "Nation")], 1, 50⟩, ⟨[("type", Val.str "Region")], 11, 20⟩,
   ⟨[("type", Val.str "Venue")], 12, 15⟩, ⟨[("type", Val.str "Region")], 21, 30⟩]

/-! ## The forest of `sortChain`, by position

The result of `sortChain` described from the positions of its input, for
comparison with the loops above. -/

/-- Depth of the unit at position `i` of the input of `sortChain`: the index of
its `type` in `types`, `-1` when there is none. -/
def depthAt (types : List String) (units : List Entry) (i : Nat) : Int :=
  indexOf types
    (match units[i]? with
      | some e => e.attrs.lookup "type"
      | none => none)

/-- The largest index below `m` whose depth is strictly less than that of `i`. -/
def nearestBelow (d : Nat → Int) (i : Nat) : Nat → Option Nat
  | 0 => none
  | u + 1 => if d u < d i then some u else nearestBelow d i u

/-- The position of the nearest preceding strictly shallower unit of position
`i`, if there is one. -/
def parentAt (types : List String) (units : List Entry) (i : Nat) : Option Nat :=
  nearestBelow (depthAt types units) i i

/-- The positions from `k` on whose nearest preceding strictly shallower unit is
at `u`, in descending order. -/
def kidsFrom (types : List String) (units : List Entry) (k u : Nat) : List Nat :=
  ((List.range' k (units.length - k)).filter
    (fun i => decide (parentAt types units i = some u))).reverse

/-- The positions whose nearest preceding strictly shallower unit is at `u`, in
descending order. -/
def kidsAt (types : List String) (units : List Entry) (u : Nat) : List Nat :=
  ((List.range units.length).filter
    (fun i => decide (parentAt types units i = some u))).reverse

/-- The scalar attributes of the unit at position `j`. -/
def attrsAt (units : List Entry) (j : Nat) : Attrs :=
  match units[j]? with
  | some e => e.attrs
  | none => []

/-- The tree below position `j`, cut off after `fuel` levels. -/
def builtAux (types : List String) (units : List Entry) : Nat → Nat → Entry
  | 0, j => .mk (attrsAt units j) (some [])
  | fuel + 1, j =>
    .mk (attrsAt units j) (some ((kidsAt types units j).map (builtAux types units fuel)))

/-- The tree of position `j`: the unit at `j` with, as children, the trees of
the positions of `kidsAt`. -/
def built (types : List String) (units : List Entry) (j : Nat) : Entry :=
  builtAux types units (units.length - j) j

/-- The positions that have no preceding strictly shallower unit, in ascending
order. -/
def topAt (types : List String) (units : List Entry) : List Nat :=
  (List.range units.length).filter (fun i => decide (parentAt types units i = none))

/-- The slot at position `j` once the outer loop has handled every index from
`k` on. -/
def slotAt (types : List String) (units : List Entry) (k j : Nat) : Option Node :=
  if k ≤ j ∧ (parentAt types units j).isSome then none
  else some ⟨attrsAt units j, (kidsFrom types units k j).map (built types units)⟩

/-- The array `units` once the outer loop has handled every index from `k` on. -/
def stateAt (types : List String) (units : List Entry) (k : Nat) : List (Option Node) :=
  (List.range units.length).map (slotAt types units k)

/-! ## The entries of a forest -/

mutual
/-- The attributes of an entry and of every entry nested below it, at any
level. -/
def Entry.flat : Entry → List Attrs
  | .mk a c => a :: flatOpt c
/-- The attributes of every entry of a `children` key, at any level. -/
def flatOpt : Option (List Entry) → List Attrs
  | none => []
  | some l => flatList l
/-- The attributes of every entry of a forest, at any level. -/
def flatList : List Entry → List Attrs
  | [] => []
  | e :: l => e.flat ++ flatList l
end

/-- The attributes of every entry reachable from a slot of `units`. -/
def slotFlat : Option Node → List Attrs
  | none => []
  | some n => n.attrs :: flatList n.children

/-- The attributes of every entry reachable from the array `units`. -/
def flatState (units : List (Option Node)) : List Attrs :=
  units.flatMap slotFlat

/-! ## Subtrees, by position -/

/-- The first index from `k` on, within `fuel` steps, whose depth is at most
that of `i`; `k + fuel` when there is none. -/
def firstFrom (d : Nat → Int) (i : Nat) : Nat → Nat → Nat
  | k, 0 => k
  | k, fuel + 1 => if d k ≤ d i then k else firstFrom d i (k + 1) fuel

/-- The first position after `i` whose depth is equal to or shallower than that
of `i`; the length of the input when there is none. -/
def nextAt (types : List String) (units : List Entry) (i : Nat) : Nat :=
  firstFrom (depthAt types units) i (i + 1) (units.length - (i + 1))

/-- The positions nested below position `j`, down to `fuel` levels. -/
def belowAux (types : List String) (units : List Entry) : Nat → Nat → List Nat
  | 0, _ => []
  | fuel + 1, j => (kidsAt types units j).flatMap (fun a => a :: belowAux types units fuel a)

/-- The positions nested below position `j` in the forest: its children and
their descendants. -/
def below (types : List String) (units : List Entry) (j : Nat) : List Nat :=
  belowAux types units (units.length - j) j

/-! ## Theorems -/

section Forest

variable (types : List String) (units : List Entry)

theorem nearestBelow_lt (d : Nat → Int) (i : Nat) :
    ∀ (m u : Nat), nearestBelow d i m = some u → u < m := by
  intro m
  induction m with
  | zero => intro u h; simp [nearestBelow] at h
  | succ m ih =>
    intro u h
    unfold nearestBelow at h
    split at h
    · simp at h; omega
    · have := ih u h; omega

theorem nearestBelow_some_iff (d : Nat → Int) (i : Nat) :
    ∀ (m u : Nat), nearestBelow d i m = some u ↔
      u < m ∧ d u < d i ∧ ∀ v, u < v → v < m → ¬ d v < d i := by
  intro m
  induction m with
  | zero => intro u; simp [nearestBelow]
  | succ m ih =>
    intro u
    unfold nearestBelow
    by_cases hm : d m < d i
    · simp only [hm, if_true, Option.some.injEq]
      constructor
      · rintro rfl
        exact ⟨by omega, hm, fun v h1 h2 => by omega⟩
      · rintro ⟨h1, _, h3⟩
        by_contra hne
        exact h3 m (by omega) (by omega) hm
    · simp only [hm, if_false, ih u]
      constructor
      · rintro ⟨h1, h2, h3⟩
        refine ⟨by omega, h2, fun v hv1 hv2 => ?_⟩
        by_cases hv : v = m
        · subst hv; exact hm
        · exact h3 v hv1 (by omega)
      · rintro ⟨h1, h2, h3⟩
        have hum : u ≠ m := by rintro rfl; exact hm h2
        exact ⟨by omega, h2, fun v hv1 hv2 => h3 v hv1 (by omega)⟩

theorem nearestBelow_none_iff (d : Nat → Int) (i : Nat) :
    ∀ (m : Nat), nearestBelow d i m = none ↔ ∀ u, u < m → ¬ d u < d i := by
  intro m
  induction m with
  | zero => simp [nearestBelow]
  | succ m ih =>
    unfold nearestBelow
    by_cases hm : d m < d i
    · simp only [hm, if_true]
      constructor
      · intro h; cases h
      · intro h; exact absurd hm (h m (by omega))
    · simp only [hm, if_false, ih]
      constructor
      · intro h u hu
        by_cases hv : u = m
        · subst hv; exact hm
        · exact h u (by omega)
      · intro h u hu; exact h u (by omega)

theorem parentAt_lt {i u : Nat} (h : parentAt types units i = some u) : u < i :=
  nearestBelow_lt _ i i u h

theorem parentAt_zero : parentAt types units 0 = none := rfl

theorem mem_kidsAt {u i : Nat} :
    i ∈ kidsAt types units u ↔ i < units.length ∧ parentAt types units i = some u := by
  simp [kidsAt]

theorem kidsAt_gt {u i : Nat} (h : i ∈ kidsAt types units u) : u < i ∧ i < units.length := by
  rw [mem_kidsAt] at h
  exact ⟨parentAt_lt types units h.2, h.1⟩

theorem kidsAt_eq_nil {u : Nat} (h : units.length ≤ u + 1) : kidsAt types units u = [] := by
  cases hk : kidsAt types units u with
  | nil => rfl
  | cons a l =>
    have := kidsAt_gt types units (u := u) (i := a) (by rw [hk]; exact List.mem_cons_self _ _)
    omega

theorem builtAux_succ (fuel : Nat) :
    ∀ j, units.length - j ≤ fuel + 1 →
      builtAux types units (fuel + 1) j = builtAux types units fuel j := by
  induction fuel with
  | zero =>
    intro j hj
    simp [builtAux, kidsAt_eq_nil types units (u := j) (by omega)]
  | succ fuel ih =>
    intro j hj
    show Entry.mk _ _ = Entry.mk _ _
    congr 2
    apply List.map_congr_left
    intro i hi
    have := kidsAt_gt types units hi
    exact ih i (by omega)

theorem builtAux_stable (fuel : Nat) (j : Nat) :
    builtAux types units (units.length - j - 1 + fuel) j = built types units j := by
  induction fuel with
  | zero =>
    unfold built
    by_cases h : units.length - j = 0
    · rw [h]
    · have : units.length - j = (units.length - j - 1) + 1 := by omega
      rw [this, Nat.add_zero]
      exact (builtAux_succ types units _ j (by omega)).symm
  | succ fuel ih =>
    rw [← Nat.add_assoc, builtAux_succ types units _ j (by omega)]
    exact ih

theorem built_eq (j : Nat) :
    built types units j =
      .mk (attrsAt units j) (some ((kidsAt types units j).map (built types units))) := by
  by_cases h : units.length ≤ j + 1
  · rw [kidsAt_eq_nil types units h]
    unfold built
    by_cases h0 : units.length - j = 0
    · rw [h0]; rfl
    · have : units.length - j = 0 + 1 := by omega
      rw [this]
      simp [builtAux, kidsAt_eq_nil types units h]
  · have hlen : units.length - j = (units.length - j - 1) + 1 := by omega
    conv_lhs => unfold built; rw [hlen]
    show Entry.mk _ _ = Entry.mk _ _
    congr 2
    apply List.map_congr_left
    intro i hi
    have hgt := kidsAt_gt types units hi
    have := builtAux_stable types units (units.length - j - 1 - (units.length - i - 1)) i
    rw [← this]
    congr 1
    omega

theorem kidsFrom_step {k : Nat} (u : Nat) (hk : k < units.length) :
    kidsFrom types units k u =
      kidsFrom types units (k + 1) u ++
        (if parentAt types units k = some u then [k] else []) := by
  unfold kidsFrom
  have : units.length - k = (units.length - (k + 1)) + 1 := by omega
  rw [this, List.range'_succ, List.filter_cons]
  by_cases hp : parentAt types units k = some u
  · simp [hp]
  · simp [hp]

theorem kidsFrom_of_le {k u : Nat} (h : k ≤ u + 1) :
    kidsFrom types units k u = kidsAt types units u := by
  unfold kidsFrom kidsAt
  congr 1
  rw [List.range_eq_range']
  induction k with
  | zero => simp
  | succ k ih =>
    rw [← ih (by omega)]
    by_cases hk : k < units.length
    · have : units.length - k = (units.length - (k + 1)) + 1 := by omega
      rw [this, List.range'_succ, List.filter_cons]
      have hp : ¬ parentAt types units k = some u := by
        intro hp
        have := parentAt_lt types units hp
        omega
      simp [hp]
    · have h1 : units.length - (k + 1) = 0 := by omega
      have h2 : units.length - k = 0 := by omega
      rw [h1, h2]
      rfl

theorem stateAt_length (k : Nat) : (stateAt types units k).length = units.length := by
  simp [stateAt]

theorem stateAt_getElem? (k j : Nat) :
    (stateAt types units k)[j]? =
      if j < units.length then some (slotAt types units k j) else none := by
  unfold stateAt
  rw [List.getElem?_map]
  by_cases h : j < units.length
  · simp [h, List.getElem?_range h]
  · have h2 : units.length ≤ j := by omega
    simp [h, List.getElem?_eq_none, h2]

theorem stateAt_length_eq :
    stateAt types units units.length = units.map (fun e => some (Node.mk e.attrs [])) := by
  apply List.ext_getElem?
  intro j
  rw [stateAt_getElem?, List.getElem?_map]
  by_cases h : j < units.length
  · have hn : ¬ (units.length ≤ j) := by omega
    simp [h, slotAt, hn, kidsFrom, attrsAt, List.getElem?_eq_getElem h]
  · have h2 : units.length ≤ j := by omega
    simp [h, List.getElem?_eq_none h2]

theorem depth_stateAt {k j : Nat} (hj : j < units.length) (hjk : j < k) :
    depth types (stateAt types units k) j = depthAt types units j := by
  unfold depth depthAt
  rw [stateAt_getElem?]
  have hn : ¬ (k ≤ j) := by omega
  simp [hj, slotAt, hn, attrsAt, List.getElem?_eq_getElem hj]

theorem scan_eq (state : List (Option Node)) (d : Nat → Int) (i : Nat)
    (h : ∀ j, j ≤ i → depth types state j = d j) :
    ∀ m, m ≤ i → scan types state i m = nearestBelow d i m := by
  intro m
  induction m with
  | zero => intro _; rfl
  | succ m ih =>
    intro hm
    unfold scan nearestBelow
    rw [h i (le_refl i), h m (by omega), ih (by omega)]

theorem scan_stateAt {k : Nat} (hk : k < units.length) :
    scan types (stateAt types units (k + 1)) k k = parentAt types units k :=
  scan_eq types _ (depthAt types units) k
    (fun j hj => depth_stateAt types units (by omega) (by omega)) k (le_refl k)

theorem slotAt_below {k j : Nat} (hjk : j < k) :
    slotAt types units k j =
      some ⟨attrsAt units j, (kidsFrom types units k j).map (built types units)⟩ := by
  have hn : ¬ (k ≤ j) := by omega
  simp [slotAt, hn]

theorem body_stateAt {k : Nat} (hk : k < units.length) :
    body types (stateAt types units (k + 1)) k = stateAt types units k := by
  unfold body
  rw [scan_stateAt types units hk]
  cases hp : parentAt types units k with
  | none =>
    apply List.ext_getElem?
    intro j
    simp only [stateAt_getElem?]
    by_cases hj : j < units.length
    · simp only [hj, if_true, Option.some.injEq]
      unfold slotAt
      rw [kidsFrom_step types units j hk]
      by_cases hjk : j = k
      · subst hjk
        simp [hp]
      · have h1 : (k + 1 ≤ j) = (k ≤ j) := by
          apply propext; constructor <;> intro h <;> omega
        simp [hp, h1]
    · simp [hj]
  | some u =>
    have hu : u < k := parentAt_lt types units hp
    have e1 : (stateAt types units (k + 1))[u]? = some (slotAt types units (k + 1) u) := by
      rw [stateAt_getElem?]; simp; omega
    have e2 : (stateAt types units (k + 1))[k]? = some (slotAt types units (k + 1) k) := by
      rw [stateAt_getElem?]; simp; omega
    simp only [e1, e2, slotAt_below types units (show u < k + 1 by omega),
      slotAt_below types units (show k < k + 1 by omega)]
    apply List.ext_getElem?
    intro j
    simp only [List.getElem?_set, List.length_set, stateAt_length, stateAt_getElem?]
    by_cases hjk : k = j
    · subst hjk
      simp [hk, slotAt, hp]
    · simp only [hjk, if_false]
      by_cases hju : u = j
      · subst hju
        have hul : u < units.length := by omega
        simp only [if_true, hul]
        rw [slotAt_below types units hu, kidsFrom_step types units u hk]
        simp only [hp, if_true, List.map_append, List.map_cons, List.map_nil]
        congr 4
        rw [built_eq types units k, kidsFrom_of_le types units (le_refl _)]
        rfl
      · simp only [hju, if_false]
        by_cases hj : j < units.length
        · simp only [hj, if_true, Option.some.injEq]
          unfold slotAt
          rw [kidsFrom_step types units j hk]
          have h1 : (k + 1 ≤ j) = (k ≤ j) := by
            apply propext; constructor <;> intro h <;> omega
          have h2 : ¬ (some u = some j) := by simpa using hju
          simp [hp, h1, h2]
        · simp [hj]

theorem loop_stateAt :
    ∀ i, i < units.length →
      loop types i (stateAt types units (i + 1)) = stateAt types units 1 := by
  intro i
  induction i with
  | zero => intro _; rfl
  | succ i ih =>
    intro hi
    show loop types i (body types (stateAt types units (i + 1 + 1)) (i + 1)) = _
    rw [body_stateAt types units hi]
    exact ih (by omega)

theorem loop_reset :
    loop types (units.length - 1) (units.map (fun e => some (Node.mk e.attrs []))) =
      stateAt types units 1 := by
  rw [← stateAt_length_eq types units]
  by_cases h : units.length = 0
  · rw [h]
    simp [stateAt, h, loop]
  · have h1 : units.length = (units.length - 1) + 1 := by omega
    conv_lhs => rw [h1]
    rw [← h1]
    have := loop_stateAt types units (units.length - 1) (by omega)
    rw [← h1] at this
    exact this

theorem compact_stateAt :
    compact (stateAt types units 1) = (topAt types units).map (built types units) := by
  unfold compact stateAt topAt
  rw [List.filterMap_map]
  generalize List.range units.length = l
  induction l with
  | nil => rfl
  | cons j l ih =>
    rw [List.filterMap_cons, List.filter_cons, ih]
    cases hp : parentAt types units j with
    | none =>
      simp [slotAt, hp, Node.toEntry, built_eq types units j,
        kidsFrom_of_le types units (show 1 ≤ j + 1 by omega)]
    | some u =>
      have := parentAt_lt types units hp
      have h1 : 1 ≤ j := by omega
      simp [slotAt, hp, h1]

/-- The loops of `sortChain` build the forest described by position: the
top-level list holds the trees of the positions without a preceding strictly
shallower unit, in input order. -/
theorem sortChain_eq_built :
    sortChain types units = (topAt types units).map (built types units) := by
  unfold sortChain
  simp only [List.length_map]
  rw [loop_reset, compact_stateAt]

end Forest

section Flat

theorem flatList_append (l₁ l₂ : List Entry) :
    flatList (l₁ ++ l₂) = flatList l₁ ++ flatList l₂ := by
  induction l₁ with
  | nil => simp [flatList]
  | cons e l ih => simp [flatList, ih]

theorem flatList_eq_flatMap (l : List Entry) : flatList l = l.flatMap Entry.flat := by
  induction l with
  | nil => rfl
  | cons e l ih => simp [flatList, ih]

theorem slotFlat_some (n : Node) : slotFlat (some n) = n.toEntry.flat := rfl

theorem flatList_compact (state : List (Option Node)) :
    flatList (compact state) = flatState state := by
  unfold compact flatState
  induction state with
  | nil => rfl
  | cons a l ih =>
    cases a with
    | none => simpa [List.filterMap_cons] using ih
    | some n =>
      simp only [List.filterMap_cons, Option.map_some', flatList, List.flatMap_cons, ih]
      rfl

theorem flatState_set (state : List (Option Node)) (u : Nat) (x s : Option Node)
    (hs : state[u]? = some s) :
    ((flatState (state.set u x) : List Attrs) : Multiset Attrs) + (slotFlat s : List Attrs) =
      (flatState state : List Attrs) + (slotFlat x : List Attrs) := by
  have hu : u < state.length := by
    by_contra h
    rw [List.getElem?_eq_none (by omega)] at hs
    cases hs
  have hsu : state[u] = s := by
    rw [List.getElem?_eq_getElem hu] at hs
    exact Option.some.inj hs
  have h1 : state.set u x = state.take u ++ x :: state.drop (u + 1) := by
    rw [List.set_eq_take_append_cons_drop, if_pos hu]
  have h2 : state = state.take u ++ s :: state.drop (u + 1) := by
    conv_lhs => rw [← List.take_append_drop u state, List.drop_eq_getElem_cons hu, hsu]
  rw [h1]
  conv_rhs => rw [h2]
  unfold flatState
  simp only [List.flatMap_append, List.flatMap_cons, ← Multiset.coe_add]
  abel

theorem scan_lt (types : List String) (state : List (Option Node)) (i : Nat) :
    ∀ (m u : Nat), scan types state i m = some u → u < m := by
  intro m
  induction m with
  | zero => intro u h; simp [scan] at h
  | succ m ih =>
    intro u h
    unfold scan at h
    split at h
    · simp at h; omega
    · have := ih u h; omega

/-- One iteration of the outer loop of `sortChain` keeps every entry of the
array, each as often as before. -/
theorem flatState_body (types : List String) (state : List (Option Node)) (i : Nat) :
    (flatState (body types state i)).Perm (flatState state) := by
  unfold body
  cases hsc : scan types state i i with
  | none => exact List.Perm.refl _
  | some u =>
    have hlt : u < i := scan_lt types state i i u hsc
    simp only
    cases hu : state[u]? with
    | none => exact List.Perm.refl _
    | some su =>
      cases su with
      | none => exact List.Perm.refl _
      | some p =>
        cases hi : state[i]? with
        | none => exact List.Perm.refl _
        | some si =>
          cases si with
          | none => exact List.Perm.refl _
          | some c =>
            simp only
            apply Multiset.coe_eq_coe.mp
            have e1 := flatState_set state u
              (some { p with children := p.children ++ [c.toEntry] }) (some p) hu
            have hi1 : (state.set u
                (some { p with children := p.children ++ [c.toEntry] }))[i]? = some (some c) := by
              rw [List.getElem?_set]
              have : ¬ u = i := by omega
              simp [this, hi]
            have e2 := flatState_set _ i none (some c) hi1
            have e3 : slotFlat (some { p with children := p.children ++ [c.toEntry] }) =
                slotFlat (some p) ++ slotFlat (some c) := by
              simp [slotFlat, flatList_append, flatList, Node.toEntry, Entry.flat, flatOpt]
            rw [e3] at e1
            rw [← Multiset.coe_add] at e1
            have e2' : ((flatState ((state.set u
                (some { p with children := p.children ++ [c.toEntry] })).set i none) : List Attrs) :
                  Multiset Attrs) + (slotFlat (some c) : List Attrs) =
                (flatState (state.set u
                  (some { p with children := p.children ++ [c.toEntry] })) : List Attrs) := by
              simpa [slotFlat] using e2
            have e5 := congrArg (fun m => m + ((slotFlat (some p) : List Attrs) :
              Multiset Attrs)) e2'
            simp only at e5
            rw [e1, add_assoc, add_comm ((slotFlat (some p) : List Attrs) : Multiset Attrs)] at e5
            exact add_right_cancel e5

theorem flatState_loop (types : List String) :
    ∀ (i : Nat) (state : List (Option Node)),
      (flatState (loop types i state)).Perm (flatState state) := by
  intro i
  induction i with
  | zero => intro state; exact List.Perm.refl _
  | succ i ih =>
    intro state
    exact (ih _).trans (flatState_body types state (i + 1))

/-- The forest of `sortChain` holds every unit of its input, each as often as
the input does. -/
theorem flatList_sortChain (types : List String) (units : List Entry) :
    (flatList (sortChain types units)).Perm (units.map Entry.attrs) := by
  unfold sortChain
  simp only
  rw [flatList_compact]
  refine (flatState_loop types _ _).trans ?_
  unfold flatState
  rw [List.flatMap_map]
  induction units with
  | nil => exact List.Perm.refl _
  | cons e l ih =>
    simp only [List.flatMap_cons, List.map_cons, slotFlat, flatList]
    exact List.Perm.cons _ ih

end Flat

section Subtree

variable (types : List String) (units : List Entry)

theorem firstFrom_spec (d : Nat → Int) (i : Nat) :
    ∀ (fuel k : Nat),
      k ≤ firstFrom d i k fuel ∧ firstFrom d i k fuel ≤ k + fuel ∧
      (∀ v, k ≤ v → v < firstFrom d i k fuel → d i < d v) ∧
      (firstFrom d i k fuel < k + fuel → d (firstFrom d i k fuel) ≤ d i) := by
  intro fuel
  induction fuel with
  | zero =>
    intro k
    refine ⟨le_refl _, le_refl _, fun v h1 h2 => ?_, fun h => ?_⟩
    · simp [firstFrom] at h2; omega
    · simp [firstFrom] at h
  | succ fuel ih =>
    intro k
    unfold firstFrom
    by_cases hk : d k ≤ d i
    · rw [if_pos hk]
      exact ⟨le_refl _, by omega, fun v h1 h2 => by omega, fun _ => hk⟩
    · rw [if_neg hk]
      obtain ⟨h1, h2, h3, h4⟩ := ih (k + 1)
      refine ⟨by omega, by omega, fun v hv1 hv2 => ?_, fun h => h4 (by omega)⟩
      by_cases hvk : v = k
      · subst hvk; omega
      · exact h3 v (by omega) hv2

theorem nextAt_gt (i : Nat) : i < nextAt types units i :=
  (firstFrom_spec (depthAt types units) i _ (i + 1)).1

theorem nextAt_le {i : Nat} (h : i < units.length) : nextAt types units i ≤ units.length := by
  have := (firstFrom_spec (depthAt types units) i (units.length - (i + 1)) (i + 1)).2.1
  unfold nextAt
  omega

theorem nextAt_eq_of_ge {i : Nat} (h : units.length ≤ i) : nextAt types units i = i + 1 := by
  have h1 := (firstFrom_spec (depthAt types units) i (units.length - (i + 1)) (i + 1)).2.1
  have h2 := nextAt_gt types units i
  unfold nextAt at h2 ⊢
  omega

theorem nextAt_deeper {i v : Nat} (h1 : i < v) (h2 : v < nextAt types units i) :
    depthAt types units i < depthAt types units v :=
  (firstFrom_spec (depthAt types units) i _ (i + 1)).2.2.1 v h1 h2

theorem nextAt_shallower {i : Nat} (h : nextAt types units i < units.length) :
    depthAt types units (nextAt types units i) ≤ depthAt types units i := by
  apply (firstFrom_spec (depthAt types units) i (units.length - (i + 1)) (i + 1)).2.2.2
  unfold nextAt at h
  omega

theorem lt_nextAt_iff {i x : Nat} (hi : i < x) :
    x < nextAt types units i ↔
      x < units.length ∧ ∀ v, i < v → v ≤ x → depthAt types units i < depthAt types units v := by
  constructor
  · intro h
    have hlen : i < units.length := by
      by_contra hc
      rw [nextAt_eq_of_ge types units (by omega)] at h
      omega
    have := nextAt_le types units hlen
    exact ⟨by omega, fun v h1 h2 => nextAt_deeper types units h1 (by omega)⟩
  · rintro ⟨h1, h2⟩
    by_contra hc
    have hle : nextAt types units i ≤ x := by omega
    have h3 := nextAt_shallower types units (i := i) (by omega)
    have h4 := h2 _ (nextAt_gt types units i) hle
    omega

theorem parentAt_some_iff {i u : Nat} :
    parentAt types units i = some u ↔
      u < i ∧ depthAt types units u < depthAt types units i ∧
        ∀ v, u < v → v < i → ¬ depthAt types units v < depthAt types units i :=
  nearestBelow_some_iff _ i i u

theorem parentAt_none_iff {i : Nat} :
    parentAt types units i = none ↔
      ∀ u, u < i → ¬ depthAt types units u < depthAt types units i :=
  nearestBelow_none_iff _ i i

/-- A child of `j` together with its subtree lies within the subtree extent of
`j`. -/
theorem kid_extent_sub {j a x : Nat} (ha : a < units.length)
    (hp : parentAt types units a = some j) (h1 : a ≤ x) (h2 : x < nextAt types units a) :
    j < x ∧ x < nextAt types units j := by
  obtain ⟨hja, hd, hmin⟩ := (parentAt_some_iff types units).1 hp
  refine ⟨by omega, (lt_nextAt_iff types units (by omega)).2 ⟨?_, ?_⟩⟩
  · have := nextAt_le types units ha
    omega
  · intro v hv1 hv2
    by_cases hva : v < a
    · have := hmin v hv1 hva
      omega
    · by_cases hva2 : v = a
      · subst hva2; exact hd
      · have := nextAt_deeper types units (i := a) (v := v) (by omega) (by omega)
        omega

/-- Every position within the subtree extent of `j` lies in the subtree of a
child of `j`. -/
theorem extent_sub_kid (j : Nat) :
    ∀ (x : Nat), j < x → x < nextAt types units j →
      ∃ a, a < units.length ∧ parentAt types units a = some j ∧ a ≤ x ∧
        x < nextAt types units a := by
  intro x
  induction x using Nat.strong_induction_on with
  | _ x ih =>
    intro hjx hx
    obtain ⟨hxn, hdeep⟩ := (lt_nextAt_iff types units hjx).1 hx
    cases hp : parentAt types units x with
    | none =>
      have := (parentAt_none_iff types units).1 hp j hjx
      exact absurd (hdeep x hjx (le_refl x)) this
    | some u =>
      obtain ⟨hux, hdu, hmin⟩ := (parentAt_some_iff types units).1 hp
      have hju : j ≤ u := by
        by_contra hc
        exact hmin j (by omega) hjx (hdeep x hjx (le_refl x))
      by_cases hu : u = j
      · subst hu
        exact ⟨x, hxn, hp, le_refl x, nextAt_gt types units x⟩
      · have hux' : u < nextAt types units j := by omega
        obtain ⟨a, han, hpa, hau, hua⟩ := ih u hux (by omega) hux'
        refine ⟨a, han, hpa, by omega, (lt_nextAt_iff types units (by omega)).2 ⟨hxn, ?_⟩⟩
        intro v hv1 hv2
        have hda : depthAt types units a ≤ depthAt types units u := by
          by_cases hau2 : a = u
          · subst hau2; exact le_refl _
          · have := nextAt_deeper types units (i := a) (v := u) (by omega) hua
            omega
        by_cases hvu : v ≤ u
        · by_cases hau2 : v = u
          · subst hau2
            exact nextAt_deeper types units (i := a) hv1 hua
          · exact nextAt_deeper types units (i := a) (v := v) hv1 (by omega)
        · by_cases hvx : v = x
          · subst hvx; omega
          · have := hmin v (by omega) (by omega)
            omega

theorem mem_belowAux :
    ∀ (fuel j x : Nat), units.length - j ≤ fuel →
      (x ∈ belowAux types units fuel j ↔ j < x ∧ x < nextAt types units j) := by
  intro fuel
  induction fuel with
  | zero =>
    intro j x hj
    rw [nextAt_eq_of_ge types units (by omega)]
    simp only [belowAux, List.not_mem_nil, false_iff]
    omega
  | succ fuel ih =>
    intro j x hj
    simp only [belowAux, List.mem_flatMap, List.mem_cons, mem_kidsAt]
    constructor
    · rintro ⟨a, ⟨han, hpa⟩, hx⟩
      have hja := parentAt_lt types units hpa
      rcases hx with rfl | hx
      · exact kid_extent_sub types units han hpa (le_refl _) (nextAt_gt types units _)
      · rw [ih a x (by omega)] at hx
        exact kid_extent_sub types units han hpa (by omega) hx.2
    · rintro ⟨hjx, hx⟩
      obtain ⟨a, han, hpa, hax, hxa⟩ := extent_sub_kid types units j x hjx hx
      have hja := parentAt_lt types units hpa
      refine ⟨a, ⟨han, hpa⟩, ?_⟩
      by_cases hxa2 : x = a
      · exact Or.inl hxa2
      · exact Or.inr ((ih a x (by omega)).2 ⟨by omega, hxa⟩)

theorem kidsAt_pairwise (u : Nat) :
    (kidsAt types units u).Pairwise (fun a b => b < a) := by
  unfold kidsAt
  rw [List.pairwise_reverse]
  exact List.Pairwise.filter _ (List.pairwise_lt_range _)

theorem nodup_belowAux :
    ∀ (fuel j : Nat), units.length - j ≤ fuel → (belowAux types units fuel j).Nodup := by
  intro fuel
  induction fuel with
  | zero => intro j _; simp [belowAux]
  | succ fuel ih =>
    intro j hj
    simp only [belowAux]
    rw [List.nodup_flatMap]
    constructor
    · intro a ha
      have hgt := kidsAt_gt types units ha
      rw [List.nodup_cons]
      refine ⟨?_, ih a (by omega)⟩
      rw [mem_belowAux types units fuel a a (by omega)]
      omega
    · refine List.Pairwise.imp_of_mem ?_ (kidsAt_pairwise types units j)
      intro a b ha hb hba
      have hga := kidsAt_gt types units ha
      have hgb := kidsAt_gt types units hb
      have hpa := ((mem_kidsAt types units).1 ha).2
      obtain ⟨_, hda, hmin⟩ := (parentAt_some_iff types units).1 hpa
      have hnb : nextAt types units b ≤ a := by
        by_contra hc
        have := nextAt_deeper types units (i := b) (v := a) hba (by omega)
        exact hmin b hgb.1 hba this
      show List.Disjoint _ _
      rw [List.disjoint_left]
      intro x hxa hxb
      have h1 : a ≤ x := by
        rcases List.mem_cons.1 hxa with rfl | h
        · exact le_refl _
        · have := (mem_belowAux types units fuel a x (by omega)).1 h
          omega
      have h2 : x < nextAt types units b := by
        rcases List.mem_cons.1 hxb with rfl | h
        · exact nextAt_gt types units _
        · exact ((mem_belowAux types units fuel b x (by omega)).1 h).2
      omega

/-- The positions nested below `j` are exactly those after `j` and before the
first later position that is not deeper than `j`. -/
theorem below_perm (j : Nat) :
    (below types units j).Perm
      (List.range' (j + 1) (nextAt types units j - (j + 1))) := by
  unfold below
  rw [List.perm_ext_iff_of_nodup (nodup_belowAux types units _ j (le_refl _))
    (List.nodup_range' _ _)]
  intro x
  rw [mem_belowAux types units _ j x (le_refl _), List.mem_range'_1]
  have := nextAt_gt types units j
  omega

theorem builtAux_attrs (fuel j : Nat) :
    (builtAux types units fuel j).attrs = attrsAt units j := by
  cases fuel <;> rfl

theorem flat_builtAux :
    ∀ (fuel j : Nat),
      (builtAux types units fuel j).flat =
        attrsAt units j :: (belowAux types units fuel j).map (attrsAt units) := by
  intro fuel
  induction fuel with
  | zero => intro j; simp [builtAux, belowAux, Entry.flat, flatOpt, flatList]
  | succ fuel ih =>
    intro j
    simp only [builtAux, belowAux, Entry.flat, flatOpt, flatList_eq_flatMap,
      List.flatMap_map, List.map_flatMap, List.map_cons]
    congr 1
    apply List.flatMap_congr
    intro a _
    exact ih a

/-- The entries of the tree of position `j` are the unit at `j` and the units at
the positions below it. -/
theorem flat_built (j : Nat) :
    (built types units j).flat =
      attrsAt units j :: (below types units j).map (attrsAt units) :=
  flat_builtAux types units _ j

end Subtree

section Chain

theorem lookup_setKey_self (o : Attrs) (k : String) (v : Val) :
    (setKey o k v).lookup k = some v := by
  unfold setKey
  induction o with
  | nil => simp [List.lookup]
  | cons p o ih =>
    obtain ⟨a, b⟩ := p
    by_cases hak : a = k
    · subst hak
      simp [List.lookup]
    · have hka : (k == a) = false := by simpa using fun h => hak h.symm
      have hak2 : (a == k) = false := by simpa using hak
      by_cases hany : o.any (fun p => p.1 == k) = true
      · simp only [List.any_cons, hak2, Bool.false_or, hany, if_true, List.map_cons,
          Bool.false_eq_true, if_false, List.lookup_cons, hka] at ih ⊢
        exact ih
      · simp only [List.any_cons, hak2, Bool.false_or, hany, if_false, List.cons_append,
          List.lookup_cons, hka, Bool.false_eq_true] at ih ⊢
        exact ih

theorem lookup_replace_ne (o : Attrs) (k k2 : String) (v : Val) (h : k ≠ k2) :
    (o.map (fun p => if p.1 == k2 then (k2, v) else p)).lookup k = o.lookup k := by
  have hk : (k == k2) = false := by simpa using h
  induction o with
  | nil => rfl
  | cons p o ih =>
    obtain ⟨a, b⟩ := p
    by_cases hak : a = k2
    · subst hak
      have haa : (a == a) = true := by simp
      simp only [List.map_cons, haa, if_true, List.lookup_cons, hk, ih]
    · have hak2 : (a == k2) = false := by simpa using hak
      simp only [List.map_cons, hak2, Bool.false_eq_true, if_false, List.lookup_cons, ih]

theorem lookup_append_ne (o : Attrs) (k k2 : String) (v : Val) (h : k ≠ k2) :
    (o ++ [(k2, v)]).lookup k = o.lookup k := by
  have hk : (k == k2) = false := by simpa using h
  induction o with
  | nil => simp [List.lookup, hk]
  | cons p o ih =>
    obtain ⟨a, b⟩ := p
    simp only [List.cons_append, List.lookup_cons, ih]

theorem lookup_setKey_ne (o : Attrs) (k k2 : String) (v : Val) (h : k ≠ k2) :
    (setKey o k2 v).lookup k = o.lookup k := by
  unfold setKey
  split
  · exact lookup_replace_ne o k k2 v h
  · exact lookup_append_ne o k k2 v h

theorem lftBelow_withBounds (u : OrgUnit) (left : Int) :
    lftBelow (withBounds u) left = decide (u.lft < left) := by
  unfold lftBelow withBounds
  rw [lookup_setKey_ne _ _ _ _ (by decide), lookup_setKey_self]

theorem splitChain_parents (unit : OrgUnit) (chain : List OrgUnit) :
    (splitChain unit (some chain)).parents =
      (chain.filter (fun u => decide (u.lft < unit.lft))).map entryOf := by
  simp only [splitChain, List.partition_eq_filter_filter, List.filter_map, List.map_map]
  congr 1
  apply List.filter_congr
  intro u _
  exact lftBelow_withBounds u unit.lft

theorem splitChain_children (unit : OrgUnit) (chain : List OrgUnit) :
    (splitChain unit (some chain)).children =
      (chain.filter (fun u => !decide (u.lft < unit.lft))).map entryOf := by
  simp only [splitChain, List.partition_eq_filter_filter, List.filter_map, List.map_map]
  congr 1
  apply List.filter_congr
  intro u _
  simp [lftBelow_withBounds u unit.lft]

theorem splitChain_none (unit : OrgUnit) :
    splitChain unit none = splitChain unit (some []) := rfl

theorem flatList_entryOf (l : List OrgUnit) :
    flatList (l.map entryOf) = (l.map entryOf).map Entry.attrs := by
  induction l with
  | nil => rfl
  | cons u l ih =>
    simp only [List.map_cons, flatList, ih]
    rfl

/-- The forest of the step "Sorts children" holds every child, each as often
as the list of children does. -/
theorem flatList_sortChildren (types : List String) (l : List OrgUnit) :
    (flatList (sortChildren types (l.map entryOf))).Perm ((l.map entryOf).map Entry.attrs) := by
  unfold sortChildren
  split
  · exact flatList_sortChain types _
  · rw [flatList_entryOf]

theorem getChain_flat_perm (types : List String) (unit : OrgUnit)
    (chain : Option (List OrgUnit)) :
    ((getChain types unit chain).parents.map Entry.attrs ++
        flatList (getChain types unit chain).children).Perm
      ((chainUnits chain).map (fun u => (entryOf u).attrs)) := by
  have key : ∀ c : List OrgUnit,
      ((getChain types unit (some c)).parents.map Entry.attrs ++
        flatList (getChain types unit (some c)).children).Perm
      (c.map (fun u => (entryOf u).attrs)) := by
    intro c
    show ((splitChain unit (some c)).parents.map Entry.attrs ++
      flatList (sortChildren types (splitChain unit (some c)).children)).Perm _
    rw [splitChain_parents, splitChain_children]
    refine (List.Perm.append_left _ (flatList_sortChildren types _)).trans ?_
    rw [← List.map_append, ← List.map_append, List.map_map]
    exact ((List.filter_append_perm _ c).map _)
  cases chain with
  | none => exact key []
  | some c => exact key c

theorem not_mem_keys_omitKeys (o : Attrs) (ks : List String) (k : String) (hk : k ∈ ks) :
    ∀ p ∈ omitKeys o ks, p.1 ≠ k := by
  intro p hp
  unfold omitKeys at hp
  rw [List.mem_filter] at hp
  intro h
  have := hp.2
  rw [h] at this
  simp [hk] at this

theorem indexOf_of_not_mem (types : List String) (t : String) (h : t ∉ types) :
    indexOf types (some (Val.str t)) = -1 := by
  unfold indexOf
  have : ¬ List.indexOf t types < types.length := by
    rw [List.indexOf_lt_length]; exact h
  simp [this]

theorem indexOf_of_mem (types : List String) (t : String) (h : t ∈ types) :
    0 ≤ indexOf types (some (Val.str t)) := by
  unfold indexOf
  have : List.indexOf t types < types.length := List.indexOf_lt_length.2 h
  simp [this]

theorem depthAt_eq (types : List String) (units : List Entry) (i : Nat) :
    depthAt types units i = indexOf types ((attrsAt units i).lookup "type") := by
  unfold depthAt attrsAt
  cases units[i]? <;> rfl

theorem neg_one_le_depthAt (types : List String) (units : List Entry) (i : Nat) :
    -1 ≤ depthAt types units i := by
  unfold depthAt indexOf
  split
  · split <;> omega
  · omega

end Chain

/-! ## The claims -/

section Claims

/-- C1: the top level of the forest of `sortChain` holds, in input order, the
trees of the positions that have no strictly shallower unit before them
(position 0 among them); the children of the tree of position `u` are the
trees of the positions `i` for which `u` is the largest index below `i` with
`depth(u) < depth(i)`; a parent and its child never have equal depth. -/
theorem sortChain_parent_is_nearest_shallower (types : List String) (units : List Entry) :
    sortChain types units = (topAt types units).map (built types units) ∧
    (∀ i, built types units i =
      .mk (attrsAt units i) (some ((kidsAt types units i).map (built types units)))) ∧
    (∀ i, i ∈ topAt types units ↔
      i < units.length ∧ ∀ u, u < i → ¬ depthAt types units u < depthAt types units i) ∧
    (∀ i u, i ∈ kidsAt types units u ↔
      i < units.length ∧ u < i ∧ depthAt types units u < depthAt types units i ∧
        ∀ v, u < v → v < i → ¬ depthAt types units v < depthAt types units i) ∧
    (∀ i u, i ∈ kidsAt types units u → depthAt types units u ≠ depthAt types units i) := by
  refine ⟨sortChain_eq_built types units, built_eq types units, ?_, ?_, ?_⟩
  · intro i
    simp only [topAt, List.mem_filter, List.mem_range, decide_eq_true_eq, parentAt_none_iff]
  · intro i u
    rw [mem_kidsAt, parentAt_some_iff]
  · intro i u h
    rw [mem_kidsAt, parentAt_some_iff] at h
    omega

/-- C2: the split of `getChain` puts into `parents` the units of the chain whose
`lft` is strictly below that of the focal unit, and into `children` all the
others, each group in chain order; `getChain` returns these parents, and hands
these children to the sorting step. -/
theorem getChain_partition_by_lft (types : List String) (unit : OrgUnit)
    (chain : List OrgUnit) :
    (splitChain unit (some chain)).parents =
      (chain.filter (fun u => decide (u.lft < unit.lft))).map entryOf ∧
    (splitChain unit (some chain)).children =
      (chain.filter (fun u => !decide (u.lft < unit.lft))).map entryOf ∧
    (getChain types unit (some chain)).parents =
      (chain.filter (fun u => decide (u.lft < unit.lft))).map entryOf ∧
    (getChain types unit (some chain)).children =
      sortChildren types ((chain.filter (fun u => !decide (u.lft < unit.lft))).map entryOf) := by
  refine ⟨splitChain_parents unit chain, splitChain_children unit chain,
    splitChain_parents unit chain, ?_⟩
  show sortChildren types (splitChain unit (some chain)).children = _
  rw [splitChain_children]

/-- C3: the entries of `parents` together with the entries of the forest
`children`, at any level of nesting, are the units of the chain, each as often
as the chain holds it: none is lost, none is duplicated, none is in both. -/
theorem getChain_each_unit_once (types : List String) (unit : OrgUnit)
    (chain : Option (List OrgUnit)) :
    ((getChain types unit chain).parents.map Entry.attrs ++
        flatList (getChain types unit chain).children).Perm
      ((chainUnits chain).map (fun u => (entryOf u).attrs)) :=
  getChain_flat_perm types unit chain

/-- C4, as stated, fails: a unit of the chain with the `lft` of the focal unit
is returned among the children, here at their top level with its own
descendant below it. -/
theorem getChain_focal_among_children :
    (getChain typeOrder ⟨[("type", Val.str "Region")], 10, 20⟩
      (some [⟨[("type", Val.str "Nation")], 1, 50⟩, ⟨[("type", Val.str "Region")], 10, 20⟩,
        ⟨[("type", Val.str "Venue")], 11, 12⟩])).parents =
      [.mk [("type", Val.str "Nation")] none] ∧
    (getChain typeOrder ⟨[("type", Val.str "Region")], 10, 20⟩
      (some [⟨[("type", Val.str "Nation")], 1, 50⟩, ⟨[("type", Val.str "Region")], 10, 20⟩,
        ⟨[("type", Val.str "Venue")], 11, 12⟩])).children =
      [.mk [("type", Val.str "Region")] (some [.mk [("type", Val.str "Venue")] (some [])])] :=
  ⟨rfl, rfl⟩

/-- C4, amended: a unit of the chain whose `lft` equals that of the focal unit
adds nothing to `parents`, and is an entry of the forest `children`. -/
theorem getChain_focal_goes_to_children (types : List String) (unit : OrgUnit)
    (pre post : List OrgUnit) (u : OrgUnit) (h : u.lft = unit.lft) :
    (getChain types unit (some (pre ++ u :: post))).parents =
      (getChain types unit (some (pre ++ post))).parents ∧
    (entryOf u).attrs ∈ flatList (getChain types unit (some (pre ++ u :: post))).children := by
  constructor
  · show (splitChain unit (some (pre ++ u :: post))).parents =
      (splitChain unit (some (pre ++ post))).parents
    rw [splitChain_parents, splitChain_parents]
    have : ¬ (u.lft < unit.lft) := by omega
    simp [List.filter_append, List.filter_cons, this]
  · show _ ∈ flatList (sortChildren types (splitChain unit (some (pre ++ u :: post))).children)
    rw [splitChain_children]
    rw [(flatList_sortChildren types _).mem_iff]
    have : ¬ (u.lft < unit.lft) := by omega
    simp only [List.mem_map, List.mem_filter]
    exact ⟨entryOf u, ⟨u, ⟨by simp, by simp [this]⟩, rfl⟩, rfl⟩

theorem getChain_focal_goes_to_children_witness :
    (10 : Int) = 10 ∧
    ((getChain typeOrder ⟨[("type", Val.str "Region")], 10, 20⟩
        (some ([⟨[("type", Val.str "Nation")], 1, 50⟩] ++
          (⟨[("type", Val.str "Region")], 10, 20⟩ : OrgUnit) ::
            [⟨[("type", Val.str "Venue")], 11, 12⟩]))).parents =
      (getChain typeOrder ⟨[("type", Val.str "Region")], 10, 20⟩
        (some ([⟨[("type", Val.str "Nation")], 1, 50⟩] ++
          [⟨[("type", Val.str "Venue")], 11, 12⟩]))).parents ∧
    (entryOf ⟨[("type", Val.str "Region")], 10, 20⟩).attrs ∈
      flatList (getChain typeOrder ⟨[("type", Val.str "Region")], 10, 20⟩
        (some ([⟨[("type", Val.str "Nation")], 1, 50⟩] ++
          (⟨[("type", Val.str "Region")], 10, 20⟩ : OrgUnit) ::
            [⟨[("type", Val.str "Venue")], 11, 12⟩]))).children) :=
  ⟨rfl, getChain_focal_goes_to_children typeOrder ⟨[("type", Val.str "Region")], 10, 20⟩
    [⟨[("type", Val.str "Nation")], 1, 50⟩] [⟨[("type", Val.str "Venue")], 11, 12⟩]
    ⟨[("type", Val.str "Region")], 10, 20⟩ rfl⟩

/-- C5, as stated, fails: on a unit of type `Galaxy`, `sortChain` raises no
error and returns a forest, in which the `Venue` that follows is nested under
the `Galaxy`. -/
theorem sortChain_unknown_type_returns_forest :
    sortChain typeOrder [ofType "Galaxy", ofType "Venue"] =
      [.mk [("type", Val.str "Galaxy")] (some [.mk [("type", Val.str "Venue")] (some [])])] :=
  rfl

/-- C5, amended: `sortChain` returns its forest also when the type of a unit is
not in the type list; such a unit has depth `-1`, is nested under no unit (its
tree is at the top level), and a unit right after it whose type is in the list
is its child. -/
theorem sortChain_unknown_type_stays_top (types : List String) (units : List Entry)
    (i : Nat) (t : String) (hi : i < units.length)
    (ht : (attrsAt units i).lookup "type" = some (Val.str t)) (hnot : t ∉ types) :
    sortChain types units = (topAt types units).map (built types units) ∧
    depthAt types units i = -1 ∧
    i ∈ topAt types units ∧
    (∀ u, i ∉ kidsAt types units u) ∧
    (∀ s, i + 1 < units.length → (attrsAt units (i + 1)).lookup "type" = some (Val.str s) →
      s ∈ types → i + 1 ∈ kidsAt types units i) := by
  have hd : depthAt types units i = -1 := by
    rw [depthAt_eq, ht]
    exact indexOf_of_not_mem types t hnot
  have hnone : parentAt types units i = none := by
    rw [parentAt_none_iff]
    intro u _
    have := neg_one_le_depthAt types units u
    omega
  refine ⟨sortChain_eq_built types units, hd, ?_, ?_, ?_⟩
  · simp [topAt, hi, hnone]
  · intro u hu
    rw [mem_kidsAt, hnone] at hu
    cases hu.2
  · intro s hlen hs hmem
    rw [mem_kidsAt, parentAt_some_iff]
    have h0 : 0 ≤ depthAt types units (i + 1) := by
      rw [depthAt_eq, hs]
      exact indexOf_of_mem types s hmem
    exact ⟨hlen, by omega, by omega, fun v h1 h2 => by omega⟩

theorem sortChain_unknown_type_stays_top_witness :
    0 < [ofType "Galaxy", ofType "Venue"].length ∧
    (attrsAt [ofType "Galaxy", ofType "Venue"] 0).lookup "type" = some (Val.str "Galaxy") ∧
    "Galaxy" ∉ typeOrder ∧
    depthAt typeOrder [ofType "Galaxy", ofType "Venue"] 0 = -1 ∧
    0 ∈ topAt typeOrder [ofType "Galaxy", ofType "Venue"] ∧
    0 + 1 ∈ kidsAt typeOrder [ofType "Galaxy", ofType "Venue"] 0 :=
  ⟨by decide, rfl, by decide,
    (sortChain_unknown_type_stays_top typeOrder [ofType "Galaxy", ofType "Venue"] 0 "Galaxy"
      (by decide) rfl (by decide)).2.1,
    (sortChain_unknown_type_stays_top typeOrder [ofType "Galaxy", ofType "Venue"] 0 "Galaxy"
      (by decide) rfl (by decide)).2.2.1,
    (sortChain_unknown_type_stays_top typeOrder [ofType "Galaxy", ofType "Venue"] 0 "Galaxy"
      (by decide) rfl (by decide)).2.2.2.2 "Venue" (by decide) rfl (by decide)⟩

/-- C6: no entry of `parents` and no entry of the forest `children`, at any
level of nesting, has a key `lft` or `rgt`. -/
theorem getChain_bounds_hidden (types : List String) (unit : OrgUnit)
    (chain : Option (List OrgUnit)) (a : Attrs)
    (ha : a ∈ (getChain types unit chain).parents.map Entry.attrs ++
      flatList (getChain types unit chain).children) :
    ∀ p ∈ a, p.1 ≠ "lft" ∧ p.1 ≠ "rgt" := by
  rw [(getChain_flat_perm types unit chain).mem_iff, List.mem_map] at ha
  obtain ⟨u, _, rfl⟩ := ha
  intro p hp
  exact ⟨not_mem_keys_omitKeys _ _ "lft" (by decide) p hp,
    not_mem_keys_omitKeys _ _ "rgt" (by decide) p hp⟩

theorem getChain_bounds_hidden_witness :
    [("type", Val.str "Venue")] ∈
      (getChain typeOrder scenarioFocal (some scenarioChain)).parents.map Entry.attrs ++
        flatList (getChain typeOrder scenarioFocal (some scenarioChain)).children ∧
    ("type", Val.str "Venue") ∈ [("type", Val.str "Venue")] ∧
    ("type", Val.str "Venue").1 ≠ "lft" ∧ ("type", Val.str "Venue").1 ≠ "rgt" :=
  ⟨by decide, by decide,
    getChain_bounds_hidden typeOrder scenarioFocal (some scenarioChain)
      [("type", Val.str "Venue")] (by decide) ("type", Val.str "Venue") (by decide)⟩

/-- C7: the sorting step of `getChain` returns a list of at most one child as
it is: the empty list stays empty, and a single child is returned with no key
added or changed. -/
theorem sortChildren_short_unchanged (types : List String) (children : List Entry)
    (h : children.length ≤ 1) : sortChildren types children = children := by
  unfold sortChildren
  rw [if_neg (by omega)]

theorem sortChildren_short_unchanged_witness :
    [ofType "Region"].length ≤ 1 ∧
    sortChildren typeOrder [ofType "Region"] = [ofType "Region"] :=
  ⟨by decide, sortChildren_short_unchanged typeOrder [ofType "Region"] (by decide)⟩

/-- C8, as stated, fails: for `[Nation, Region, Venue, Region]` the forest of
`sortChain` has one top-level node, the `Nation`, not the two `Region`s. -/
theorem sortChain_nation_first_one_root :
    (sortChain typeOrder
      [named "Nation" "n", named "Region" "a", named "Venue" "v", named "Region" "b"]).length = 1 ∧
    sortChain typeOrder
      [named "Nation" "n", named "Region" "a", named "Venue" "v", named "Region" "b"] ≠
      [.mk (named "Region" "a").attrs (some [.mk (named "Venue" "v").attrs (some [])]),
       .mk (named "Region" "b").attrs (some [])] :=
  ⟨rfl, fun h => absurd (congrArg List.length h) (by decide)⟩

/-- C8, amended: with TypeOrder = [Nation, Region, Domain, Venue], for the four
units [Nation, Region, Venue, Region] `sortChain` returns exactly one top-level
node, the Nation; its children are, in this order, the second Region with no
children and the first Region with the Venue as its only child. -/
theorem sortChain_nation_region_venue_region (n a v b : Entry)
    (hn : n.attrs.lookup "type" = some (Val.str "Nation"))
    (ha : a.attrs.lookup "type" = some (Val.str "Region"))
    (hv : v.attrs.lookup "type" = some (Val.str "Venue"))
    (hb : b.attrs.lookup "type" = some (Val.str "Region")) :
    sortChain typeOrder [n, a, v, b] =
      [.mk n.attrs (some [.mk b.attrs (some []),
        .mk a.attrs (some [.mk v.attrs (some [])])])] := by
  have d0 : indexOf typeOrder (some (Val.str "Nation")) = 0 := by decide
  have d1 : indexOf typeOrder (some (Val.str "Region")) = 1 := by decide
  have d3 : indexOf typeOrder (some (Val.str "Venue")) = 3 := by decide
  simp [sortChain, loop, body, scan, depth, compact, Node.toEntry, hn, ha, hv, hb, d0, d1, d3]

theorem sortChain_nation_region_venue_region_witness :
    (named "Nation" "n").attrs.lookup "type" = some (Val.str "Nation") ∧
    (named "Region" "a").attrs.lookup "type" = some (Val.str "Region") ∧
    (named "Venue" "v").attrs.lookup "type" = some (Val.str "Venue") ∧
    (named "Region" "b").attrs.lookup "type" = some (Val.str "Region") ∧
    sortChain typeOrder
      [named "Nation" "n", named "Region" "a", named "Venue" "v", named "Region" "b"] =
      [.mk (named "Nation" "n").attrs (some [.mk (named "Region" "b").attrs (some []),
        .mk (named "Region" "a").attrs (some [.mk (named "Venue" "v").attrs (some [])])])] :=
  ⟨rfl, rfl, rfl, rfl,
    sortChain_nation_region_venue_region (named "Nation" "n") (named "Region" "a")
      (named "Venue" "v") (named "Region" "b") rfl rfl rfl rfl⟩

/-- C9: in the forest of `sortChain`, the entries nested under the tree of
position `i` (its children and their descendants) are the units at the positions
`below i`, and these are exactly the positions from `i + 1` up to, not
including, `nextAt i`: the first later position whose depth is equal to or
shallower than that of `i`, or the length of the input when there is none. -/
theorem sortChain_subtree_extent (types : List String) (units : List Entry) (i : Nat)
    (hi : i < units.length) :
    sortChain types units = (topAt types units).map (built types units) ∧
    (∀ j, built types units j =
      .mk (attrsAt units j) (some ((kidsAt types units j).map (built types units)))) ∧
    (i ∈ topAt types units ∨ ∃ u, u < i ∧ i ∈ kidsAt types units u) ∧
    flatOpt (built types units i).children = (below types units i).map (attrsAt units) ∧
    (below types units i).Perm (List.range' (i + 1) (nextAt types units i - (i + 1))) ∧
    i < nextAt types units i ∧ nextAt types units i ≤ units.length ∧
    (∀ v, i < v → v < nextAt types units i →
      depthAt types units i < depthAt types units v) ∧
    (nextAt types units i < units.length →
      depthAt types units (nextAt types units i) ≤ depthAt types units i) := by
  refine ⟨sortChain_eq_built types units, built_eq types units, ?_, ?_,
    below_perm types units i, nextAt_gt types units i, nextAt_le types units hi,
    fun v h1 h2 => nextAt_deeper types units h1 h2, nextAt_shallower types units⟩
  · cases hp : parentAt types units i with
    | none => left; simp [topAt, hi, hp]
    | some u =>
      right
      exact ⟨u, parentAt_lt types units hp, (mem_kidsAt types units).2 ⟨hi, hp⟩⟩
  · have h := flat_built types units i
    cases hb : built types units i with
    | mk a c =>
      rw [hb] at h
      simp only [Entry.flat, List.cons.injEq] at h
      exact h.2

theorem sortChain_subtree_extent_witness :
    1 < [ofType "Nation", ofType "Region", ofType "Venue", ofType "Region"].length ∧
    (below typeOrder [ofType "Nation", ofType "Region", ofType "Venue", ofType "Region"] 1).Perm
      (List.range' (1 + 1)
        (nextAt typeOrder [ofType "Nation", ofType "Region", ofType "Venue", ofType "Region"] 1
          - (1 + 1))) :=
  ⟨by decide,
    (sortChain_subtree_extent typeOrder
      [ofType "Nation", ofType "Region", ofType "Venue", ofType "Region"] 1
      (by decide)).2.2.2.2.1⟩

/-- C10: in the forest of `sortChain` the children of every node are in
descending order of their position in the input, and the top level is in
ascending order of position; for `[Region, Venue a, Venue b]` the children of
the Region are `[Venue b, Venue a]`. -/
theorem sortChain_children_reverse_order (types : List String) (units : List Entry) :
    sortChain types units = (topAt types units).map (built types units) ∧
    (topAt types units).Pairwise (fun a b => a < b) ∧
    (∀ u, (built types units u).children =
        some ((kidsAt types units u).map (built types units)) ∧
      (kidsAt types units u).Pairwise (fun a b => b < a)) ∧
    sortChain typeOrder [named "Region" "r", named "Venue" "a", named "Venue" "b"] =
      [.mk (named "Region" "r").attrs
        (some [.mk (named "Venue" "b").attrs (some []),
          .mk (named "Venue" "a").attrs (some [])])] := by
  refine ⟨sortChain_eq_built types units, ?_, fun u => ⟨?_, kidsAt_pairwise types units u⟩, rfl⟩
  · exact List.Pairwise.filter _ (List.pairwise_lt_range _)
  · rw [built_eq types units u]
    rfl

/-! ## Worked inputs -/

/-- On the empty list `sortChain` returns the empty list. -/
theorem sortChain_nil (types : List String) : sortChain types [] = [] := rfl

/-- Called on one unit, `sortChain` returns it with an empty `children`;
`getChain` does not call it on fewer than two children. -/
theorem sortChain_singleton (types : List String) (x : Entry) :
    sortChain types [x] = [.mk x.attrs (some [])] := rfl

/-- Two units of equal depth stay side by side at the top level. -/
theorem sortChain_equal_depth :
    sortChain typeOrder [named "Region" "a", named "Region" "b"] =
      [.mk (named "Region" "a").attrs (some []), .mk (named "Region" "b").attrs (some [])] :=
  rfl

/-- The scenario of the spec: one parent, and two top-level children of which
the first holds the Venue. -/
theorem getChain_scenario :
    (getChain typeOrder scenarioFocal (some scenarioChain)).parents =
      [.mk [("type", Val.str "Nation")] none] ∧
    (getChain typeOrder scenarioFocal (some scenarioChain)).children =
      [.mk [("type", Val.str "Region")] (some [.mk [("type", Val.str "Venue")] (some [])]),
       .mk [("type", Val.str "Region")] (some [])] :=
  ⟨rfl, rfl⟩

end Claims

end OrgUnits
